import Mathlib

/-!
Verification of the file-selection engine of `sixach/wp-scripts`.

The engine is `getAllFilesInDirectory` in `src/utils/file.js` (the walker
variant that takes `ignoredFiles`): a synchronous recursive directory walk
that, for each child of a directory, tests the child against every ignore
pattern (anchored patterns starting with `/` are tested as a literal string
prefix of the joined child path after stripping the leading `/`; unanchored
patterns are tested with `minimatch` against the base name), skips matched
children entirely (pruning), recurses into unmatched directories and appends
unmatched files to the accumulator `foundFiles`.

The filesystem is embedded as a finite tree: a directory's listing is a
`List (String × FSEntry)` in `readdirSync` order, and an `FSEntry` is either
a regular file or a directory with its own listing.  Paths are the strings
the JavaScript code computes with `path.join`, which for the separator-free
segment names used here is plain concatenation with `/` (and the identity on
the segment when the directory path is empty).
-/

/-- Character-list prefix test, the semantics of JavaScript
`String.prototype.startsWith` on the decoded characters. -/
def isPrefixL : List Char → List Char → Bool
  | [], _ => true
  | _ :: _, [] => false
  | a :: as, b :: bs => a == b && isPrefixL as bs

/-- `strStartsWith s p` is JavaScript `s.startsWith(p)`. -/
def strStartsWith (s p : String) : Bool := isPrefixL p.data s.data

/-- `strDrop1 s` is JavaScript `s.substr(1)`. -/
def strDrop1 (s : String) : String := ⟨s.data.drop 1⟩

/-- `pathJoin d n` is Node's `path.join(d, n)` for the inputs the walker
produces: segment names free of separators and directory paths without a
trailing separator.  `path.join('', n) = n`; otherwise the parts are joined
with a single `/`. -/
def pathJoin (directoryPath fileName : String) : String :=
  if directoryPath = "" then fileName else directoryPath ++ "/" ++ fileName

/-- Membership test of a character in a glob character class body
(ranges `a-z` supported). -/
def classMatch : List Char → Char → Bool
  | [], _ => false
  | a :: '-' :: b :: rest, c => (a ≤ c && c ≤ b) || classMatch rest c
  | a :: rest, c => a == c || classMatch rest c

/-- Scan a character-class body up to the closing `]`; `none` when the class
is unclosed (the `[` is then treated as a literal character). -/
def spanClass : List Char → Option (List Char × List Char)
  | [] => none
  | ']' :: rest => some ([], rest)
  | c :: cs =>
    match spanClass cs with
    | some (items, rest) => some (c :: items, rest)
    | none => none

/-- Split a glob pattern tail that follows a `[` into the negation flag, the
class body and the remainder of the pattern; a leading `!` or `^` negates,
and a `]` right after the (possibly negated) opening is a literal member. -/
def splitClass (l : List Char) : Option (Bool × List Char × List Char) :=
  let p : Bool × List Char :=
    match l with
    | '!' :: rest => (true, rest)
    | '^' :: rest => (true, rest)
    | _ => (false, l)
  match p.2 with
  | ']' :: rest2 =>
    match spanClass rest2 with
    | some (items, rest) => some (p.1, ']' :: items, rest)
    | none => none
  | l' =>
    match spanClass l' with
    | some (items, rest) => some (p.1, items, rest)
    | none => none

/-- Fuel-indexed single-segment glob matcher: `*` matches any run of
characters, `?` exactly one, `[...]` a character class; every other
character matches itself.  Each step consumes fuel; `globFuel` with fuel
`pattern.length + name.length + 1` computes the match (every recursive call
strictly decreases `pattern.length + name.length`). -/
def globFuel : Nat → List Char → List Char → Bool
  | 0, _, _ => false
  | _ + 1, [], [] => true
  | _ + 1, [], _ :: _ => false
  | fuel + 1, '*' :: ps, [] => globFuel fuel ps []
  | fuel + 1, '*' :: ps, c :: ns => globFuel fuel ps (c :: ns) || globFuel fuel ('*' :: ps) ns
  | fuel + 1, '?' :: ps, _ :: ns => globFuel fuel ps ns
  | fuel + 1, '[' :: ps, c :: ns =>
    (match splitClass ps with
     | some (neg, items, rest) => (classMatch items c != neg) && globFuel fuel rest ns
     | none => ('[' == c) && globFuel fuel ps ns)
  | _ + 1, _ :: _, [] => false
  | fuel + 1, p :: ps, c :: ns => p == c && globFuel fuel ps ns

/-- Modelled from the spec: the glob engine is the third-party `minimatch`
library, whose code is not among the repository sources.  Following the
spec's description of unanchored matching — "the child's base name (not full
path) matches the glob expression under standard glob semantics (`*` matches
any run of characters within a path segment, `?` matches one character,
character classes supported)" — and since base names contain no path
separator, matching is single-segment glob matching.  `minimatch name pat`
mirrors the call `minimatch( fileName, currentIgnoredFile )`. -/
def minimatch (fileName pattern : String) : Bool :=
  globFuel (pattern.data.length + fileName.data.length + 1) pattern.data fileName.data

/-- A node of the embedded filesystem: a regular file, or a directory with
its listing (in `readdirSync` order). -/
inductive FSEntry : Type where
  | file : FSEntry
  | dir : List (String × FSEntry) → FSEntry

/-- The pattern test the walker applies to one child, from the body of the
inner `for` loop of `getAllFilesInDirectory`:
anchored patterns (starting with `/`) match when the pattern minus its
leading `/` is a literal prefix of `path.join(directoryPath, fileName)`;
any other pattern matches when `minimatch(fileName, pattern)` holds. -/
def matchesChild (directoryPath fileName pat : String) : Bool :=
  if strStartsWith pat "/" then
    strStartsWith (pathJoin directoryPath fileName) (strDrop1 pat)
  else
    minimatch fileName pat

/-- `getAllFilesInDirectory` from `src/utils/file.js`, with the directory's
listing made explicit (`entries` is what `readdirSync(directoryPath)`
returns, paired with what `statSync` reports for each child).  For each
child in listing order: if some ignored pattern matches it (the inner loop
with `continue outer`, i.e. a short-circuited existential over the pattern
list), the child is skipped entirely; otherwise a directory child is
recursed into, threading `foundFiles`, and a file child's joined path is
pushed onto `foundFiles`.  In the source `ignoredFiles` and `foundFiles`
are optional parameters defaulting to `[]`. -/
def getAllFilesInDirectory (directoryPath : String)
    (entries : List (String × FSEntry))
    (ignoredFiles : List String) (foundFiles : List String) :
    List String :=
  match entries with
  | [] => foundFiles
  | (fileName, entry) :: rest =>
    let filePath := pathJoin directoryPath fileName
    if ignoredFiles.any (fun pat => matchesChild directoryPath fileName pat) then
      getAllFilesInDirectory directoryPath rest ignoredFiles foundFiles
    else
      match entry with
      | .dir children =>
        getAllFilesInDirectory directoryPath rest ignoredFiles
          (getAllFilesInDirectory filePath children ignoredFiles foundFiles)
      | .file =>
        getAllFilesInDirectory directoryPath rest ignoredFiles
          (foundFiles ++ [filePath])

example :
    getAllFilesInDirectory "r" [("a.txt", .file), ("b.log", .file)] ["*.log"] []
      = ["r/a.txt"] := by
  simp [getAllFilesInDirectory, matchesChild, minimatch, globFuel, strStartsWith,
    strDrop1, isPrefixL, pathJoin]

example :
    getAllFilesInDirectory "r"
      [("build", .dir [("keep.txt", .file)]), ("x.txt", .file)] ["build"] []
      = ["r/x.txt"] := by
  simp [getAllFilesInDirectory, matchesChild, minimatch, globFuel, strStartsWith,
    strDrop1, isPrefixL, pathJoin]

/-! ### Induction infrastructure

`getAllFilesInDirectory` recurses both along a listing and into nested
listings, so proofs proceed by strong induction on the size of the listing.
-/

theorem sizeOf_rest_lt (n : String) (e : FSEntry)
    (rest : List (String × FSEntry)) : sizeOf rest < sizeOf ((n, e) :: rest) := by
  simp_arith

theorem sizeOf_children_lt (n : String) (cs : List (String × FSEntry))
    (rest : List (String × FSEntry)) :
    sizeOf cs < sizeOf ((n, FSEntry.dir cs) :: rest) := by
  simp_arith

theorem listing_strong_ind (P : List (String × FSEntry) → Prop)
    (step : ∀ es, (∀ cs, sizeOf cs < sizeOf es → P cs) → P es) :
    ∀ es, P es := by
  intro es
  generalize h : sizeOf es = N
  induction N using Nat.strong_induction_on generalizing es with
  | _ N ih =>
    subst h
    exact step es (fun cs hlt => ih (sizeOf cs) hlt cs rfl)

/-- Unfolding: walking an empty listing returns the accumulator. -/
theorem getAllFiles_nil (d : String) (ig found : List String) :
    getAllFilesInDirectory d [] ig found = found := by
  rw [getAllFilesInDirectory.eq_def]

/-- Unfolding: a child matched by some pattern is skipped entirely. -/
theorem getAllFiles_cons_matched (d n : String) (e : FSEntry)
    (rest : List (String × FSEntry)) (ig found : List String)
    (hm : (ig.any fun pat => matchesChild d n pat) = true) :
    getAllFilesInDirectory d ((n, e) :: rest) ig found
      = getAllFilesInDirectory d rest ig found := by
  rw [getAllFilesInDirectory.eq_def]
  simp only [hm, if_true]

/-- Unfolding: an unmatched file child is appended to the accumulator. -/
theorem getAllFiles_cons_file (d n : String)
    (rest : List (String × FSEntry)) (ig found : List String)
    (hm : (ig.any fun pat => matchesChild d n pat) = false) :
    getAllFilesInDirectory d ((n, FSEntry.file) :: rest) ig found
      = getAllFilesInDirectory d rest ig (found ++ [pathJoin d n]) := by
  rw [getAllFilesInDirectory.eq_def]
  simp only [hm, Bool.false_eq_true, if_false]

/-- Unfolding: an unmatched directory child is recursed into, threading the
accumulator. -/
theorem getAllFiles_cons_dir (d n : String) (cs rest : List (String × FSEntry))
    (ig found : List String)
    (hm : (ig.any fun pat => matchesChild d n pat) = false) :
    getAllFilesInDirectory d ((n, FSEntry.dir cs) :: rest) ig found
      = getAllFilesInDirectory d rest ig
          (getAllFilesInDirectory (pathJoin d n) cs ig found) := by
  rw [getAllFilesInDirectory.eq_def]
  simp only [hm, Bool.false_eq_true, if_false]

/-- The accumulator is threaded, never inspected: the walk of a listing with
accumulator `foundFiles` is `foundFiles` followed by the walk started from
an empty accumulator. -/
theorem getAllFiles_acc :
    ∀ (es : List (String × FSEntry)) (d : String) (ig found : List String),
    getAllFilesInDirectory d es ig found
      = found ++ getAllFilesInDirectory d es ig [] := by
  refine listing_strong_ind _ ?_
  intro es ih d ig found
  match es with
  | [] => simp [getAllFiles_nil]
  | (n, e) :: rest =>
    by_cases hm : (ig.any fun pat => matchesChild d n pat) = true
    · rw [getAllFiles_cons_matched d n e rest ig found hm,
        getAllFiles_cons_matched d n e rest ig [] hm]
      exact ih rest (sizeOf_rest_lt n e rest) d ig found
    · have hm' := eq_false_of_ne_true hm
      match e with
      | .file =>
        rw [getAllFiles_cons_file d n rest ig found hm',
          getAllFiles_cons_file d n rest ig [] hm',
          ih rest (sizeOf_rest_lt n .file rest) d ig (found ++ [pathJoin d n]),
          ih rest (sizeOf_rest_lt n .file rest) d ig ([] ++ [pathJoin d n])]
        simp
      | .dir cs =>
        rw [getAllFiles_cons_dir d n cs rest ig found hm',
          getAllFiles_cons_dir d n cs rest ig [] hm',
          ih rest (sizeOf_rest_lt n (.dir cs) rest) d ig
            (getAllFilesInDirectory (pathJoin d n) cs ig found),
          ih rest (sizeOf_rest_lt n (.dir cs) rest) d ig
            (getAllFilesInDirectory (pathJoin d n) cs ig []),
          ih cs (sizeOf_children_lt n cs rest) (pathJoin d n) ig found]
        simp

/-! ### Spec-side tree predicates -/

/-- `FileIn d es p`: `p` is the joined path of a regular file somewhere in
the tree with listing `es`, the listed directory itself having path `d`. -/
inductive FileIn : String → List (String × FSEntry) → String → Prop where
  | here : ∀ (d : String) (es : List (String × FSEntry)) (n : String),
      (n, FSEntry.file) ∈ es → FileIn d es (pathJoin d n)
  | there : ∀ (d : String) (es : List (String × FSEntry)) (n : String)
      (cs : List (String × FSEntry)) (p : String),
      (n, FSEntry.dir cs) ∈ es → FileIn (pathJoin d n) cs p → FileIn d es p

/-- `FileInUnpruned ig d es p`: `p` is the joined path of a regular file in
the tree, and no step on the way there — neither any ancestor directory nor
the file's own entry — matches a pattern of `ig`. -/
inductive FileInUnpruned (ig : List String) :
    String → List (String × FSEntry) → String → Prop where
  | here : ∀ (d : String) (es : List (String × FSEntry)) (n : String),
      (n, FSEntry.file) ∈ es →
      (ig.any fun pat => matchesChild d n pat) = false →
      FileInUnpruned ig d es (pathJoin d n)
  | there : ∀ (d : String) (es : List (String × FSEntry)) (n : String)
      (cs : List (String × FSEntry)) (p : String),
      (n, FSEntry.dir cs) ∈ es →
      (ig.any fun pat => matchesChild d n pat) = false →
      FileInUnpruned ig (pathJoin d n) cs p →
      FileInUnpruned ig d es p

/-- `FileInSelfClean ig d es p`: `p` is the joined path of a regular file in
the tree whose own entry matches zero patterns of `ig` — the file "matches
zero patterns", with no condition on its ancestor directories. -/
inductive FileInSelfClean (ig : List String) :
    String → List (String × FSEntry) → String → Prop where
  | here : ∀ (d : String) (es : List (String × FSEntry)) (n : String),
      (n, FSEntry.file) ∈ es →
      (ig.any fun pat => matchesChild d n pat) = false →
      FileInSelfClean ig d es (pathJoin d n)
  | there : ∀ (d : String) (es : List (String × FSEntry)) (n : String)
      (cs : List (String × FSEntry)) (p : String),
      (n, FSEntry.dir cs) ∈ es →
      FileInSelfClean ig (pathJoin d n) cs p →
      FileInSelfClean ig d es p

theorem FileInUnpruned.weaken {ig : List String} {d p : String}
    {rest : List (String × FSEntry)} (hd : String × FSEntry)
    (h : FileInUnpruned ig d rest p) : FileInUnpruned ig d (hd :: rest) p := by
  cases h with
  | here d es n hmem hnm => exact .here d _ n (List.mem_cons_of_mem _ hmem) hnm
  | there d es n cs p hmem hnm h' =>
    exact .there d _ n cs p (List.mem_cons_of_mem _ hmem) hnm h'

theorem FileInUnpruned.toSelfClean {ig : List String} {d p : String}
    {es : List (String × FSEntry)} (h : FileInUnpruned ig d es p) :
    FileInSelfClean ig d es p := by
  induction h with
  | here d es n hmem hnm => exact .here d es n hmem hnm
  | there d es n cs p hmem hnm h' ih => exact .there d es n cs p hmem ih

/-- Membership characterization of the walk: starting from an empty
accumulator, a path is produced exactly when it denotes a file whose whole
access path from the walk root is unmatched by every pattern. -/
theorem mem_getAllFiles_iff :
    ∀ (es : List (String × FSEntry)) (d : String) (ig : List String)
      (p : String),
    p ∈ getAllFilesInDirectory d es ig [] ↔ FileInUnpruned ig d es p := by
  refine listing_strong_ind _ ?_
  intro es ih d ig p
  match es with
  | [] =>
    rw [getAllFiles_nil]
    simp only [List.not_mem_nil, false_iff]
    intro h
    cases h with
    | here d es n hmem hnm => exact absurd hmem (List.not_mem_nil _)
    | there d es n cs p hmem hnm h' => exact absurd hmem (List.not_mem_nil _)
  | (n, e) :: rest =>
    by_cases hm : (ig.any fun pat => matchesChild d n pat) = true
    · rw [getAllFiles_cons_matched d n e rest ig [] hm,
        ih rest (sizeOf_rest_lt n e rest) d ig p]
      constructor
      · exact fun h => h.weaken (n, e)
      · intro h
        cases h with
        | here d es n' hmem hnm =>
          rcases List.mem_cons.mp hmem with heq | hmem'
          · obtain ⟨hn, -⟩ := Prod.mk.injEq .. ▸ heq
            rw [hn] at hnm
            rw [hnm] at hm
            exact absurd hm (by simp)
          · exact .here d _ n' hmem' hnm
        | there d es n' cs p hmem hnm h' =>
          rcases List.mem_cons.mp hmem with heq | hmem'
          · obtain ⟨hn, -⟩ := Prod.mk.injEq .. ▸ heq
            rw [hn] at hnm
            rw [hnm] at hm
            exact absurd hm (by simp)
          · exact .there d _ n' cs p hmem' hnm h'
    · have hm' := eq_false_of_ne_true hm
      match e with
      | .file =>
        rw [getAllFiles_cons_file d n rest ig [] hm',
          getAllFiles_acc rest d ig ([] ++ [pathJoin d n])]
        simp only [List.nil_append, List.mem_append, List.mem_singleton]
        rw [ih rest (sizeOf_rest_lt n .file rest) d ig p]
        constructor
        · rintro (rfl | h)
          · exact .here d _ n (List.mem_cons_self _ _) hm'
          · exact h.weaken (n, .file)
        · intro h
          cases h with
          | here d es n' hmem hnm =>
            rcases List.mem_cons.mp hmem with heq | hmem'
            · obtain ⟨hn, -⟩ := Prod.mk.injEq .. ▸ heq
              exact Or.inl (by rw [hn])
            · exact Or.inr (.here d _ n' hmem' hnm)
          | there d es n' cs p hmem hnm h' =>
            rcases List.mem_cons.mp hmem with heq | hmem'
            · obtain ⟨-, hcs⟩ := Prod.mk.injEq .. ▸ heq
              exact absurd hcs (by intro hcs; cases hcs)
            · exact Or.inr (.there d _ n' cs p hmem' hnm h')
      | .dir cs =>
        rw [getAllFiles_cons_dir d n cs rest ig [] hm',
          getAllFiles_acc rest d ig
            (getAllFilesInDirectory (pathJoin d n) cs ig [])]
        simp only [List.mem_append]
        rw [ih rest (sizeOf_rest_lt n (.dir cs) rest) d ig p,
          ih cs (sizeOf_children_lt n cs rest) (pathJoin d n) ig p]
        constructor
        · rintro (h | h)
          · exact .there d _ n cs p (List.mem_cons_self _ _) hm' h
          · exact h.weaken (n, .dir cs)
        · intro h
          cases h with
          | here d es n' hmem hnm =>
            rcases List.mem_cons.mp hmem with heq | hmem'
            · obtain ⟨-, hcs⟩ := Prod.mk.injEq .. ▸ heq
              exact absurd hcs (by intro hcs; cases hcs)
            · exact Or.inr (.here d _ n' hmem' hnm)
          | there d es n' cs' p hmem hnm h' =>
            rcases List.mem_cons.mp hmem with heq | hmem'
            · obtain ⟨hn, hcs⟩ := Prod.mk.injEq .. ▸ heq
              obtain hcs' := FSEntry.dir.injEq .. ▸ hcs
              subst hn
              subst hcs'
              exact Or.inl h'
            · exact Or.inr (.there d _ n' cs' p hmem' hnm h')

/-! ### String and path lemmas -/

theorem isPrefixL_iff : ∀ (a b : List Char), isPrefixL a b = true ↔ a <+: b := by
  intro a
  induction a with
  | nil => intro b; simp [isPrefixL]
  | cons x xs ih =>
    intro b
    cases b with
    | nil => simp [isPrefixL]
    | cons y ys =>
      simp only [isPrefixL, Bool.and_eq_true, beq_iff_eq, List.cons_prefix_cons, ih]

theorem strStartsWith_iff (s p : String) :
    strStartsWith s p = true ↔ p.data <+: s.data := isPrefixL_iff _ _

theorem pathJoin_data_of_ne (d n : String) (h : ¬ d = "") :
    (pathJoin d n).data = d.data ++ '/' :: n.data := by
  rw [pathJoin, if_neg h]
  show (d.data ++ "/".data) ++ n.data = d.data ++ '/' :: n.data
  simp

theorem data_prefix_pathJoin (d n : String) : d.data <+: (pathJoin d n).data := by
  by_cases h : d = ""
  · subst h; exact List.nil_prefix
  · rw [pathJoin_data_of_ne d n h]; exact List.prefix_append _ _

theorem pathJoin_pathJoin (d n s' : String) :
    ∃ s, pathJoin (pathJoin d n) s' = pathJoin d s := by
  by_cases hd : d = ""
  · subst hd
    refine ⟨pathJoin n s', ?_⟩
    simp [pathJoin]
  · have hne : ¬ pathJoin d n = "" := by
      intro h
      have hdata := congrArg String.data h
      rw [pathJoin_data_of_ne d n hd] at hdata
      simp at hdata
    refine ⟨n ++ "/" ++ s', ?_⟩
    apply String.ext
    rw [pathJoin_data_of_ne _ _ hne, pathJoin_data_of_ne d n hd,
      pathJoin_data_of_ne d _ hd]
    show (d.data ++ '/' :: n.data) ++ '/' :: s'.data
      = d.data ++ '/' :: ((n.data ++ "/".data) ++ s'.data)
    simp

/-! ### Claims C1 and C2 -/

/-- C1 (counterexample): the claim "a file appears in the Inclusion Set iff
it matches zero patterns in P, for every file anywhere in the tree,
including files inside directories that themselves match a pattern" is
false.  Concrete input: root path `r`, tree `build/keep.txt`, pattern list
`["build"]`.  The file `r/build/keep.txt` matches zero patterns
(`FileInSelfClean` holds for it), yet the walk returns the empty list, so
the file is not in the Inclusion Set. -/
theorem C1_pruned_clean_file_counterexample :
    ¬ (∀ p : String,
        p ∈ getAllFilesInDirectory "r"
              [("build", FSEntry.dir [("keep.txt", FSEntry.file)])] ["build"] []
          ↔ FileInSelfClean ["build"] "r"
              [("build", FSEntry.dir [("keep.txt", FSEntry.file)])] p) := by
  intro hclaim
  have hclean : FileInSelfClean ["build"] "r"
      [("build", FSEntry.dir [("keep.txt", FSEntry.file)])] "r/build/keep.txt" := by
    have hp : ("r/build/keep.txt" : String)
        = pathJoin (pathJoin "r" "build") "keep.txt" := by decide
    rw [hp]
    refine FileInSelfClean.there "r" _ "build" [("keep.txt", FSEntry.file)] _
      (by simp) ?_
    exact FileInSelfClean.here _ _ "keep.txt" (by simp) (by decide)
  have hmem := (hclaim _).mpr hclean
  have hres : getAllFilesInDirectory "r"
      [("build", FSEntry.dir [("keep.txt", FSEntry.file)])] ["build"] [] = [] := by
    simp [getAllFilesInDirectory, matchesChild, minimatch, globFuel, strStartsWith,
      strDrop1, isPrefixL, pathJoin]
  rw [hres] at hmem
  exact absurd hmem (List.not_mem_nil _)

/-- C1 (amended): a file appears in the Inclusion Set returned by
`getAllFilesInDirectory` iff it matches zero patterns AND every ancestor
directory on the way from the walk root to the file also matches zero
patterns — pruning removes whole matched subtrees, so a non-matching file
below a matched directory does not appear. -/
theorem C1_inclusion_iff_path_unmatched
    (directoryPath : String) (entries : List (String × FSEntry))
    (ignoredFiles : List String) (p : String) :
    p ∈ getAllFilesInDirectory directoryPath entries ignoredFiles []
      ↔ FileInUnpruned ignoredFiles directoryPath entries p :=
  mem_getAllFiles_iff entries directoryPath ignoredFiles p

/-- C2: a directory child matched by some ignore pattern contributes
nothing: the walk of a listing containing the matched directory equals the
walk of the listing with that directory removed, for every subtree `cs`
hanging below it (in particular the subtree is never consulted, even when
it contains files matching no pattern). -/
theorem C2_matched_directory_contributes_nothing
    (ig : List String) (d n : String) (cs es₂ : List (String × FSEntry))
    (hm : (ig.any fun pat => matchesChild d n pat) = true) :
    ∀ (es₁ : List (String × FSEntry)) (found : List String),
    getAllFilesInDirectory d (es₁ ++ (n, FSEntry.dir cs) :: es₂) ig found
      = getAllFilesInDirectory d (es₁ ++ es₂) ig found := by
  intro es₁
  induction es₁ with
  | nil =>
    intro found
    rw [List.nil_append, List.nil_append,
      getAllFiles_cons_matched d n (FSEntry.dir cs) es₂ ig found hm]
  | cons hd tl ih =>
    intro found
    obtain ⟨m, me⟩ := hd
    rw [List.cons_append, List.cons_append]
    by_cases hm2 : (ig.any fun pat => matchesChild d m pat) = true
    · rw [getAllFiles_cons_matched d m me _ ig found hm2,
        getAllFiles_cons_matched d m me _ ig found hm2]
      exact ih found
    · have hm2' := eq_false_of_ne_true hm2
      match me with
      | .file =>
        rw [getAllFiles_cons_file d m _ ig found hm2',
          getAllFiles_cons_file d m _ ig found hm2']
        exact ih _
      | .dir cs2 =>
        rw [getAllFiles_cons_dir d m cs2 _ ig found hm2',
          getAllFiles_cons_dir d m cs2 _ ig found hm2']
        exact ih _

/-- Witness for C2 at a concrete input: pruning the matched directory
`build` (pattern list `["build"]`) leaves the walk of the remaining
siblings `a.txt` and `z.txt`. -/
theorem C2_matched_directory_contributes_nothing_witness :
    getAllFilesInDirectory "r"
        ([("a.txt", FSEntry.file)]
          ++ ("build", FSEntry.dir [("keep.txt", FSEntry.file)])
            :: [("z.txt", FSEntry.file)]) ["build"] []
      = getAllFilesInDirectory "r"
          ([("a.txt", FSEntry.file)] ++ [("z.txt", FSEntry.file)]) ["build"] [] :=
  C2_matched_directory_contributes_nothing ["build"] "r" "build"
    [("keep.txt", FSEntry.file)] [("z.txt", FSEntry.file)] (by decide)
    [("a.txt", FSEntry.file)] []

/-! ### Claims C3 and C4 -/

/-- C3 (counterexample): for a walk rooted at an absolute project root the
claim fails.  With root `/r`, tree `src/index.js` plus
`vendor/pkg/src/index.js`, and pattern list `["/src"]`, the claim says
`<root>/src/index.js` is excluded; but the code compares the stripped
pattern `src` as a literal prefix of the full joined path `/r/src/index.js`
— which does not start with `src` — so the file is included. -/
theorem C3_absolute_root_counterexample :
    "/r/src/index.js" ∈ getAllFilesInDirectory "/r"
        [("src", FSEntry.dir [("index.js", FSEntry.file)]),
         ("vendor", FSEntry.dir
           [("pkg", FSEntry.dir
             [("src", FSEntry.dir [("index.js", FSEntry.file)])])])]
        ["/src"] [] := by
  have hres : getAllFilesInDirectory "/r"
      [("src", FSEntry.dir [("index.js", FSEntry.file)]),
       ("vendor", FSEntry.dir
         [("pkg", FSEntry.dir
           [("src", FSEntry.dir [("index.js", FSEntry.file)])])])]
      ["/src"] []
      = ["/r/src/index.js", "/r/vendor/pkg/src/index.js"] := by
    simp [getAllFilesInDirectory, matchesChild, minimatch, globFuel, strStartsWith,
      strDrop1, isPrefixL, pathJoin]
  rw [hres]
  simp

/-- C3 (amended): an anchored pattern matches a child exactly when the
pattern with its leading separator stripped is a literal prefix of the
child's FULL joined path, which coincides with the root-relative path only
when the walk is rooted at the empty relative root; rooted there, `/src`
excludes `src/index.js` and does not exclude `vendor/pkg/src/index.js`. -/
theorem C3_anchored_prefix_semantics_amended :
    (∀ (d n pat : String), strStartsWith pat "/" = true →
      matchesChild d n pat = strStartsWith (pathJoin d n) (strDrop1 pat))
    ∧ getAllFilesInDirectory ""
        [("src", FSEntry.dir [("index.js", FSEntry.file)]),
         ("vendor", FSEntry.dir
           [("pkg", FSEntry.dir
             [("src", FSEntry.dir [("index.js", FSEntry.file)])])])]
        ["/src"] []
      = ["vendor/pkg/src/index.js"] := by
  constructor
  · intro d n pat hp
    rw [matchesChild, if_pos hp]
  · simp [getAllFilesInDirectory, matchesChild, minimatch, globFuel, strStartsWith,
      strDrop1, isPrefixL, pathJoin]

/-- Witness for the amended C3: the anchored test for pattern `/src` on
child `src` of directory `a` is the prefix test on the joined path. -/
theorem C3_anchored_prefix_semantics_witness :
    matchesChild "a" "src" "/src"
      = strStartsWith (pathJoin "a" "src") (strDrop1 "/src") :=
  C3_anchored_prefix_semantics_amended.1 "a" "src" "/src" (by decide)

/-- For an anchored pattern whose stripped text is prefix-incomparable with
the walk root `d`, no child visited anywhere below `d` matches: every
visited directory path extends `d`, so a stripped text that prefixed a
joined child path would be prefix-comparable with `d`. -/
theorem anchored_incomparable_no_match (d pat : String)
    (hp : strStartsWith pat "/" = true)
    (h1 : strStartsWith d (strDrop1 pat) = false)
    (h2 : strStartsWith (strDrop1 pat) d = false)
    (d' n : String) (hd' : d.data <+: d'.data) :
    matchesChild d' n pat = false := by
  rw [matchesChild, if_pos hp]
  by_contra hne
  have hmatch : strStartsWith (pathJoin d' n) (strDrop1 pat) = true :=
    eq_true_of_ne_false hne
  have hsp : (strDrop1 pat).data <+: (pathJoin d' n).data :=
    (strStartsWith_iff _ _).mp hmatch
  have hdp : d.data <+: (pathJoin d' n).data :=
    hd'.trans (data_prefix_pathJoin d' n)
  rcases List.prefix_or_prefix_of_prefix hsp hdp with h | h
  · exact absurd ((strStartsWith_iff _ _).mpr h) (by rw [h1]; simp)
  · exact absurd ((strStartsWith_iff _ _).mpr h) (by rw [h2]; simp)

/-- Dropping an always-false pattern from the list does not change the
walk: core of the amended C4. -/
theorem walk_drop_anchored_incomparable (d pat : String)
    (ig₁ ig₂ : List String)
    (hp : strStartsWith pat "/" = true)
    (h1 : strStartsWith d (strDrop1 pat) = false)
    (h2 : strStartsWith (strDrop1 pat) d = false) :
    ∀ (es : List (String × FSEntry)) (d' : String) (found : List String),
    d.data <+: d'.data →
    getAllFilesInDirectory d' es (ig₁ ++ pat :: ig₂) found
      = getAllFilesInDirectory d' es (ig₁ ++ ig₂) found := by
  refine listing_strong_ind
    (fun es => ∀ (d' : String) (found : List String), d.data <+: d'.data →
      getAllFilesInDirectory d' es (ig₁ ++ pat :: ig₂) found
        = getAllFilesInDirectory d' es (ig₁ ++ ig₂) found) ?_
  intro es ih d' found hd'
  match es with
  | [] => rw [getAllFiles_nil, getAllFiles_nil]
  | (n, e) :: rest =>
    have hany : ((ig₁ ++ pat :: ig₂).any fun q => matchesChild d' n q)
        = ((ig₁ ++ ig₂).any fun q => matchesChild d' n q) := by
      have hf : matchesChild d' n pat = false :=
        anchored_incomparable_no_match d pat hp h1 h2 d' n hd'
      simp [List.any_append, List.any_cons, hf]
    by_cases hm : ((ig₁ ++ ig₂).any fun q => matchesChild d' n q) = true
    · rw [getAllFiles_cons_matched d' n e rest _ found (hany.trans hm),
        getAllFiles_cons_matched d' n e rest _ found hm]
      exact ih rest (sizeOf_rest_lt n e rest) d' found hd'
    · have hm' := eq_false_of_ne_true hm
      have hm'' : ((ig₁ ++ pat :: ig₂).any fun q => matchesChild d' n q) = false :=
        hany.trans hm'
      match e with
      | .file =>
        rw [getAllFiles_cons_file d' n rest _ found hm'',
          getAllFiles_cons_file d' n rest _ found hm']
        exact ih rest (sizeOf_rest_lt n .file rest) d' _ hd'
      | .dir cs =>
        rw [getAllFiles_cons_dir d' n cs rest _ found hm'',
          getAllFiles_cons_dir d' n cs rest _ found hm',
          ih cs (sizeOf_children_lt n cs rest) (pathJoin d' n) found
            (hd'.trans (data_prefix_pathJoin d' n))]
        exact ih rest (sizeOf_rest_lt n (.dir cs) rest) d' _ hd'

/-- C4 (counterexample): the claim's condition — "the root does not itself
start with the stripped pattern text" — is not sufficient for anchored
patterns to exclude nothing.  Concrete input: root `/r`, its child `src`,
pattern `//r/s`: the root `/r` does not start with the stripped text
`/r/s`, yet the joined child path `/r/src` does, so the child is excluded
and the walk returns `[]` instead of the claimed `["/r/src"]`. -/
theorem C4_root_extension_counterexample :
    strStartsWith "/r" (strDrop1 "//r/s") = false
    ∧ getAllFilesInDirectory "/r" [("src", FSEntry.file)] ["//r/s"] [] = [] := by
  constructor
  · decide
  · simp [getAllFilesInDirectory, matchesChild, minimatch, globFuel, strStartsWith,
      strDrop1, isPrefixL, pathJoin]

/-- C4 (amended): an anchored pattern matches a child exactly when the
joined child path textually starts with the stripped pattern; when the
stripped text is prefix-INCOMPARABLE with the root (neither is a literal
prefix of the other — e.g. an absolute root `/home/user/proj` with pattern
`/src`, whose stripped text `src` does not begin with `/`), the pattern
matches no child of the walk and excludes nothing; and the prefix test also
matches sibling names sharing the prefix: rooted at the empty relative
root, `/src` excludes a root entry named `srcfoo`. -/
theorem C4_anchored_incomparable_excludes_nothing :
    (∀ (ig₁ ig₂ : List String) (pat d : String),
      strStartsWith pat "/" = true →
      strStartsWith d (strDrop1 pat) = false →
      strStartsWith (strDrop1 pat) d = false →
      ∀ (es : List (String × FSEntry)) (found : List String),
      getAllFilesInDirectory d es (ig₁ ++ pat :: ig₂) found
        = getAllFilesInDirectory d es (ig₁ ++ ig₂) found)
    ∧ getAllFilesInDirectory "" [("srcfoo", FSEntry.file)] ["/src"] [] = [] := by
  constructor
  · intro ig₁ ig₂ pat d hp h1 h2 es found
    exact walk_drop_anchored_incomparable d pat ig₁ ig₂ hp h1 h2 es d found
      (List.prefix_refl d.data)
  · simp [getAllFilesInDirectory, matchesChild, minimatch, globFuel, strStartsWith,
      strDrop1, isPrefixL, pathJoin]

/-- Witness for the amended C4: with absolute root `/home/user/proj` the
anchored pattern `/src` is prefix-incomparable with the root and excludes
nothing. -/
theorem C4_anchored_incomparable_witness :
    getAllFilesInDirectory "/home/user/proj"
        [("src", FSEntry.dir [("index.js", FSEntry.file)])] ["/src"] []
      = getAllFilesInDirectory "/home/user/proj"
          [("src", FSEntry.dir [("index.js", FSEntry.file)])] [] [] :=
  C4_anchored_incomparable_excludes_nothing.1 [] [] "/src" "/home/user/proj"
    (by decide) (by decide) (by decide)
    [("src", FSEntry.dir [("index.js", FSEntry.file)])] []

/-! ### Claims C5 and C6 -/

/-- C5: unanchored matching inspects the child's base name only — the test
is invariant under the directory path — so an unanchored pattern excludes
matching files at every depth.  Concretely: with pattern list `["*.zip"]`
both `<root>/build/out.zip` and `<root>/out.zip` are excluded (the
non-matching `keep.txt` survives); and a root containing exactly `a.txt`
and `b.log` walked with `["*.log"]` yields exactly the `a.txt` path. -/
theorem C5_unanchored_matches_basename_only :
    (∀ (pat d₁ d₂ n : String), strStartsWith pat "/" = false →
      matchesChild d₁ n pat = matchesChild d₂ n pat)
    ∧ getAllFilesInDirectory "r"
        [("build", FSEntry.dir [("out.zip", FSEntry.file), ("keep.txt", FSEntry.file)]),
         ("out.zip", FSEntry.file)] ["*.zip"] []
      = ["r/build/keep.txt"]
    ∧ getAllFilesInDirectory "r" [("a.txt", FSEntry.file), ("b.log", FSEntry.file)]
        ["*.log"] []
      = ["r/a.txt"] := by
  refine ⟨fun pat d₁ d₂ n hp => ?_, ?_, ?_⟩
  · rw [matchesChild, matchesChild, if_neg (by simp [hp]), if_neg (by simp [hp])]
  · simp [getAllFilesInDirectory, matchesChild, minimatch, globFuel, strStartsWith,
      strDrop1, isPrefixL, pathJoin]
  · simp [getAllFilesInDirectory, matchesChild, minimatch, globFuel, strStartsWith,
      strDrop1, isPrefixL, pathJoin]

/-- Witness for C5: the unanchored test of `*.zip` against base name
`out.zip` gives the same verdict under directory `r/build` as under `r`. -/
theorem C5_unanchored_matches_basename_witness :
    matchesChild "r/build" "out.zip" "*.zip" = matchesChild "r" "out.zip" "*.zip" :=
  C5_unanchored_matches_basename_only.1 "*.zip" "r/build" "r" "out.zip" (by decide)

theorem FileInSelfClean.toFileIn {ig : List String} {d p : String}
    {es : List (String × FSEntry)} (h : FileInSelfClean ig d es p) :
    FileIn d es p := by
  induction h with
  | here d es n hmem hnm => exact .here d es n hmem
  | there d es n cs p hmem h' ih => exact .there d es n cs p hmem ih

/-- C6: every element of the Inclusion Set denotes an entry that exists in
the walked tree as a regular file — never a directory — and that matches
zero patterns of the pattern list at its own entry. -/
theorem C6_inclusion_set_sound
    (directoryPath : String) (entries : List (String × FSEntry))
    (ignoredFiles : List String) (p : String)
    (hmem : p ∈ getAllFilesInDirectory directoryPath entries ignoredFiles []) :
    FileIn directoryPath entries p
      ∧ FileInSelfClean ignoredFiles directoryPath entries p := by
  have h := (mem_getAllFiles_iff entries directoryPath ignoredFiles p).mp hmem
  exact ⟨h.toSelfClean.toFileIn, h.toSelfClean⟩

/-- Witness for C6 at a concrete input: the single produced path `r/a.txt`
is a regular file of the tree and matches zero patterns. -/
theorem C6_inclusion_set_sound_witness :
    FileIn "r" [("a.txt", FSEntry.file), ("b.log", FSEntry.file)] "r/a.txt"
      ∧ FileInSelfClean ["*.log"] "r"
          [("a.txt", FSEntry.file), ("b.log", FSEntry.file)] "r/a.txt" :=
  C6_inclusion_set_sound "r" [("a.txt", FSEntry.file), ("b.log", FSEntry.file)]
    ["*.log"] "r/a.txt"
    (by simp [getAllFilesInDirectory, matchesChild, minimatch, globFuel,
      strStartsWith, strDrop1, isPrefixL, pathJoin])

/-! ### Claims C7, C8 and C10 -/

/-- The spec's "full recursive file listing of the root": every regular
file in the tree, in pre-order listing order, and nothing else.  This is
the spec-side description the walk is compared against for C7. -/
def allFilesList : String → List (String × FSEntry) → List String
  | _, [] => []
  | d, (n, e) :: rest =>
    match e with
    | .file => pathJoin d n :: allFilesList d rest
    | .dir cs => allFilesList (pathJoin d n) cs ++ allFilesList d rest

theorem allFilesList_nil (d : String) : allFilesList d [] = [] := by
  rw [allFilesList.eq_def]

theorem allFilesList_cons_file (d n : String) (rest : List (String × FSEntry)) :
    allFilesList d ((n, FSEntry.file) :: rest)
      = pathJoin d n :: allFilesList d rest := by
  rw [allFilesList.eq_def]

theorem allFilesList_cons_dir (d n : String) (cs rest : List (String × FSEntry)) :
    allFilesList d ((n, FSEntry.dir cs) :: rest)
      = allFilesList (pathJoin d n) cs ++ allFilesList d rest := by
  rw [allFilesList.eq_def]

theorem walk_no_patterns :
    ∀ (es : List (String × FSEntry)) (d : String) (found : List String),
    getAllFilesInDirectory d es [] found = found ++ allFilesList d es := by
  refine listing_strong_ind _ ?_
  intro es ih d found
  match es with
  | [] => rw [getAllFiles_nil, allFilesList_nil, List.append_nil]
  | (n, e) :: rest =>
    have hm : (([] : List String).any fun pat => matchesChild d n pat) = false :=
      List.any_nil
    match e with
    | .file =>
      rw [getAllFiles_cons_file d n rest [] found hm,
        ih rest (sizeOf_rest_lt n .file rest) d (found ++ [pathJoin d n]),
        allFilesList_cons_file]
      simp
    | .dir cs =>
      rw [getAllFiles_cons_dir d n cs rest [] found hm,
        ih cs (sizeOf_children_lt n cs rest) (pathJoin d n) found,
        ih rest (sizeOf_rest_lt n (.dir cs) rest) d _,
        allFilesList_cons_dir]
      simp

/-- C7: with an empty pattern list (no ignore file of any precedence tier
present) the Inclusion Set is exactly the full recursive file listing of
the root: every regular file of the tree appears and nothing else. -/
theorem C7_empty_patterns_full_listing (d : String)
    (es : List (String × FSEntry)) :
    getAllFilesInDirectory d es [] [] = allFilesList d es := by
  rw [walk_no_patterns es d [], List.nil_append]

theorem any_congr_perm (l l' : List String) (f : String → Bool)
    (h : List.Perm l l') : l.any f = l'.any f := by
  apply Bool.eq_iff_iff.mpr
  simp only [List.any_eq_true]
  constructor <;> rintro ⟨x, hx, hfx⟩
  exacts [⟨x, h.mem_iff.mp hx, hfx⟩, ⟨x, h.mem_iff.mpr hx, hfx⟩]

/-- C8: the walk only uses the pattern list through "does some pattern
match", so permuting the pattern list never changes the Inclusion Set. -/
theorem C8_pattern_order_irrelevant (ig ig' : List String)
    (hperm : List.Perm ig ig') :
    ∀ (es : List (String × FSEntry)) (d : String) (found : List String),
    getAllFilesInDirectory d es ig found
      = getAllFilesInDirectory d es ig' found := by
  refine listing_strong_ind
    (fun es => ∀ (d : String) (found : List String),
      getAllFilesInDirectory d es ig found
        = getAllFilesInDirectory d es ig' found) ?_
  intro es ih d found
  match es with
  | [] => rw [getAllFiles_nil, getAllFiles_nil]
  | (n, e) :: rest =>
    have hany : (ig.any fun pat => matchesChild d n pat)
        = (ig'.any fun pat => matchesChild d n pat) :=
      any_congr_perm ig ig' _ hperm
    by_cases hm : (ig'.any fun pat => matchesChild d n pat) = true
    · rw [getAllFiles_cons_matched d n e rest ig found (hany.trans hm),
        getAllFiles_cons_matched d n e rest ig' found hm]
      exact ih rest (sizeOf_rest_lt n e rest) d found
    · have hm' := eq_false_of_ne_true hm
      have hm'' : (ig.any fun pat => matchesChild d n pat) = false := hany.trans hm'
      match e with
      | .file =>
        rw [getAllFiles_cons_file d n rest ig found hm'',
          getAllFiles_cons_file d n rest ig' found hm']
        exact ih rest (sizeOf_rest_lt n .file rest) d _
      | .dir cs =>
        rw [getAllFiles_cons_dir d n cs rest ig found hm'',
          getAllFiles_cons_dir d n cs rest ig' found hm',
          ih cs (sizeOf_children_lt n cs rest) (pathJoin d n) found]
        exact ih rest (sizeOf_rest_lt n (.dir cs) rest) d _

/-- Witness for C8: swapping the two patterns `*.log` and `/x` leaves the
walk of a concrete tree unchanged. -/
theorem C8_pattern_order_irrelevant_witness :
    getAllFilesInDirectory "r" [("a.txt", FSEntry.file), ("b.log", FSEntry.file)]
        ["*.log", "/x"] []
      = getAllFilesInDirectory "r"
          [("a.txt", FSEntry.file), ("b.log", FSEntry.file)] ["/x", "*.log"] [] :=
  C8_pattern_order_irrelevant ["*.log", "/x"] ["/x", "*.log"]
    (List.Perm.swap "/x" "*.log" [])
    [("a.txt", FSEntry.file), ("b.log", FSEntry.file)] "r" []

theorem walk_elements_under :
    ∀ (es : List (String × FSEntry)) (d : String) (ig : List String)
      (x : String),
    x ∈ getAllFilesInDirectory d es ig [] → ∃ s, x = pathJoin d s := by
  refine listing_strong_ind _ ?_
  intro es ih d ig x hx
  match es with
  | [] =>
    rw [getAllFiles_nil] at hx
    exact absurd hx (List.not_mem_nil _)
  | (n, e) :: rest =>
    by_cases hm : (ig.any fun pat => matchesChild d n pat) = true
    · rw [getAllFiles_cons_matched d n e rest ig [] hm] at hx
      exact ih rest (sizeOf_rest_lt n e rest) d ig x hx
    · have hm' := eq_false_of_ne_true hm
      match e with
      | .file =>
        rw [getAllFiles_cons_file d n rest ig [] hm',
          getAllFiles_acc rest d ig ([] ++ [pathJoin d n])] at hx
        simp only [List.nil_append, List.mem_append, List.mem_singleton] at hx
        rcases hx with rfl | hx
        · exact ⟨n, rfl⟩
        · exact ih rest (sizeOf_rest_lt n .file rest) d ig x hx
      | .dir cs =>
        rw [getAllFiles_cons_dir d n cs rest ig [] hm',
          getAllFiles_acc rest d ig
            (getAllFilesInDirectory (pathJoin d n) cs ig [])] at hx
        rcases List.mem_append.mp hx with hx | hx
        · obtain ⟨s', hs'⟩ := ih cs (sizeOf_children_lt n cs rest) (pathJoin d n) ig x hx
          obtain ⟨s, hs⟩ := pathJoin_pathJoin d n s'
          exact ⟨s, by rw [hs', hs]⟩
        · exact ih rest (sizeOf_rest_lt n (.dir cs) rest) d ig x hx

/-- C10: the list returned by `getAllFilesInDirectory` extends the received
accumulator `foundFiles` — the accumulated entries are kept, in order, as a
leading segment — and every entry appended beyond it is of the form
`path.join(directoryPath, …)`, i.e. lies under the walked directory. -/
theorem C10_accumulator_prefix_and_scope (directoryPath : String)
    (entries : List (String × FSEntry)) (ignoredFiles foundFiles : List String) :
    ∃ l, getAllFilesInDirectory directoryPath entries ignoredFiles foundFiles
        = foundFiles ++ l
      ∧ ∀ x ∈ l, ∃ s, x = pathJoin directoryPath s := by
  refine ⟨getAllFilesInDirectory directoryPath entries ignoredFiles [],
    getAllFiles_acc entries directoryPath ignoredFiles foundFiles, ?_⟩
  intro x hx
  exact walk_elements_under entries directoryPath ignoredFiles x hx

/-! ### Claim C9: the walk over a filesystem with failing I/O

The source walker performs synchronous `readdirSync` and `statSync` calls
and installs no handler, so a failing call throws and the exception
propagates out of every recursive invocation.  The fallible filesystem is
embedded by tagging each entry with whether the I/O calls touching it
succeed: for a file, its `statSync`; for a directory, its `statSync`
together with the `readdirSync` performed on entering it (the walk aborts
at that child in either case, so one flag captures both).  The walker then
returns `Except`: `.error` is the propagated exception. -/

/-- A filesystem node tagged with I/O accessibility: `file ok` is a regular
file whose `statSync` succeeds iff `ok`; `dir ok cs` is a directory whose
`statSync`/`readdirSync` succeed iff `ok`. -/
inductive EFSEntry : Type where
  | file : Bool → EFSEntry
  | dir : Bool → List (String × EFSEntry) → EFSEntry

/-- `getAllFilesInDirectory` over the fallible filesystem: identical
control flow, but touching an inaccessible entry produces `.error` (the
thrown exception, carrying the failing path), which propagates through
every enclosing recursive call and aborts the walk. -/
def getAllFilesInDirectoryE (directoryPath : String)
    (entries : List (String × EFSEntry))
    (ignoredFiles : List String) (foundFiles : List String) :
    Except String (List String) :=
  match entries with
  | [] => .ok foundFiles
  | (fileName, entry) :: rest =>
    if ignoredFiles.any (fun pat => matchesChild directoryPath fileName pat) then
      getAllFilesInDirectoryE directoryPath rest ignoredFiles foundFiles
    else
      match entry with
      | .file true =>
        getAllFilesInDirectoryE directoryPath rest ignoredFiles
          (foundFiles ++ [pathJoin directoryPath fileName])
      | .file false => .error (pathJoin directoryPath fileName)
      | .dir true children =>
        match getAllFilesInDirectoryE (pathJoin directoryPath fileName) children
            ignoredFiles foundFiles with
        | .ok foundFiles2 =>
          getAllFilesInDirectoryE directoryPath rest ignoredFiles foundFiles2
        | .error msg => .error msg
      | .dir false _ => .error (pathJoin directoryPath fileName)

/-- Forget the accessibility tags. -/
def stripL : List (String × EFSEntry) → List (String × FSEntry)
  | [] => []
  | (n, e) :: rest =>
    match e with
    | .file _ => (n, FSEntry.file) :: stripL rest
    | .dir _ cs => (n, FSEntry.dir (stripL cs)) :: stripL rest

/-- Does the walk reach an inaccessible entry?  Mirrors the walk: pruned
children are never touched, unpruned inaccessible entries fail, unpruned
accessible directories are entered. -/
def anyFailure (ig : List String) : String → List (String × EFSEntry) → Bool
  | _, [] => false
  | d, (n, e) :: rest =>
    if ig.any (fun pat => matchesChild d n pat) then anyFailure ig d rest
    else
      match e with
      | .file ok => !ok || anyFailure ig d rest
      | .dir ok cs => !ok || (anyFailure ig (pathJoin d n) cs || anyFailure ig d rest)

theorem sizeOf_rest_ltE (n : String) (e : EFSEntry)
    (rest : List (String × EFSEntry)) : sizeOf rest < sizeOf ((n, e) :: rest) := by
  simp_arith

theorem sizeOf_children_ltE (n : String) (b : Bool)
    (cs rest : List (String × EFSEntry)) :
    sizeOf cs < sizeOf ((n, EFSEntry.dir b cs) :: rest) := by
  simp_arith

theorem listing_strong_indE (P : List (String × EFSEntry) → Prop)
    (step : ∀ es, (∀ cs, sizeOf cs < sizeOf es → P cs) → P es) :
    ∀ es, P es := by
  intro es
  generalize h : sizeOf es = N
  induction N using Nat.strong_induction_on generalizing es with
  | _ N ih =>
    subst h
    exact step es (fun cs hlt => ih (sizeOf cs) hlt cs rfl)

theorem getAllFilesE_nil (d : String) (ig found : List String) :
    getAllFilesInDirectoryE d [] ig found = .ok found := by
  rw [getAllFilesInDirectoryE.eq_def]

theorem getAllFilesE_cons_matched (d n : String) (e : EFSEntry)
    (rest : List (String × EFSEntry)) (ig found : List String)
    (hm : (ig.any fun pat => matchesChild d n pat) = true) :
    getAllFilesInDirectoryE d ((n, e) :: rest) ig found
      = getAllFilesInDirectoryE d rest ig found := by
  rw [getAllFilesInDirectoryE.eq_def]
  simp only [hm, if_true]

theorem getAllFilesE_cons_file_ok (d n : String)
    (rest : List (String × EFSEntry)) (ig found : List String)
    (hm : (ig.any fun pat => matchesChild d n pat) = false) :
    getAllFilesInDirectoryE d ((n, EFSEntry.file true) :: rest) ig found
      = getAllFilesInDirectoryE d rest ig (found ++ [pathJoin d n]) := by
  rw [getAllFilesInDirectoryE.eq_def]
  simp only [hm, Bool.false_eq_true, if_false]

theorem getAllFilesE_cons_file_bad (d n : String)
    (rest : List (String × EFSEntry)) (ig found : List String)
    (hm : (ig.any fun pat => matchesChild d n pat) = false) :
    getAllFilesInDirectoryE d ((n, EFSEntry.file false) :: rest) ig found
      = .error (pathJoin d n) := by
  rw [getAllFilesInDirectoryE.eq_def]
  simp only [hm, Bool.false_eq_true, if_false]

theorem getAllFilesE_cons_dir_bad (d n : String)
    (cs rest : List (String × EFSEntry)) (ig found : List String)
    (hm : (ig.any fun pat => matchesChild d n pat) = false) :
    getAllFilesInDirectoryE d ((n, EFSEntry.dir false cs) :: rest) ig found
      = .error (pathJoin d n) := by
  rw [getAllFilesInDirectoryE.eq_def]
  simp only [hm, Bool.false_eq_true, if_false]

theorem getAllFilesE_cons_dir_ok_ok (d n : String)
    (cs rest : List (String × EFSEntry)) (ig found found2 : List String)
    (hm : (ig.any fun pat => matchesChild d n pat) = false)
    (hin : getAllFilesInDirectoryE (pathJoin d n) cs ig found = .ok found2) :
    getAllFilesInDirectoryE d ((n, EFSEntry.dir true cs) :: rest) ig found
      = getAllFilesInDirectoryE d rest ig found2 := by
  rw [getAllFilesInDirectoryE.eq_def]
  simp only [hm, Bool.false_eq_true, if_false, hin]

theorem getAllFilesE_cons_dir_ok_err (d n : String)
    (cs rest : List (String × EFSEntry)) (ig found : List String) (msg : String)
    (hm : (ig.any fun pat => matchesChild d n pat) = false)
    (hin : getAllFilesInDirectoryE (pathJoin d n) cs ig found = .error msg) :
    getAllFilesInDirectoryE d ((n, EFSEntry.dir true cs) :: rest) ig found
      = .error msg := by
  rw [getAllFilesInDirectoryE.eq_def]
  simp only [hm, Bool.false_eq_true, if_false, hin]

theorem stripL_nil : stripL [] = [] := by rw [stripL.eq_def]

theorem stripL_cons_file (n : String) (b : Bool)
    (rest : List (String × EFSEntry)) :
    stripL ((n, EFSEntry.file b) :: rest) = (n, FSEntry.file) :: stripL rest := by
  rw [stripL.eq_def]

theorem stripL_cons_dir (n : String) (b : Bool)
    (cs rest : List (String × EFSEntry)) :
    stripL ((n, EFSEntry.dir b cs) :: rest)
      = (n, FSEntry.dir (stripL cs)) :: stripL rest := by
  rw [stripL.eq_def]

theorem anyFailure_nil (ig : List String) (d : String) :
    anyFailure ig d [] = false := by
  rw [anyFailure.eq_def]

theorem anyFailure_cons_matched (ig : List String) (d n : String) (e : EFSEntry)
    (rest : List (String × EFSEntry))
    (hm : (ig.any fun pat => matchesChild d n pat) = true) :
    anyFailure ig d ((n, e) :: rest) = anyFailure ig d rest := by
  rw [anyFailure.eq_def]
  simp only [hm, if_true]

theorem anyFailure_cons_file (ig : List String) (d n : String) (ok : Bool)
    (rest : List (String × EFSEntry))
    (hm : (ig.any fun pat => matchesChild d n pat) = false) :
    anyFailure ig d ((n, EFSEntry.file ok) :: rest)
      = (!ok || anyFailure ig d rest) := by
  rw [anyFailure.eq_def]
  simp only [hm, Bool.false_eq_true, if_false]

theorem anyFailure_cons_dir (ig : List String) (d n : String) (ok : Bool)
    (cs rest : List (String × EFSEntry))
    (hm : (ig.any fun pat => matchesChild d n pat) = false) :
    anyFailure ig d ((n, EFSEntry.dir ok cs) :: rest)
      = (!ok || (anyFailure ig (pathJoin d n) cs || anyFailure ig d rest)) := by
  rw [anyFailure.eq_def]
  simp only [hm, Bool.false_eq_true, if_false]

/-- C9: if any directory listing or stat performed during the walk fails
(an unpruned entry is inaccessible), the walk evaluates to the propagated
error alone — no partial Inclusion Set is surfaced; and when no such
failure occurs the walk returns the full Inclusion Set of the underlying
tree.  Either the complete result or the error: never a partial list. -/
theorem C9_error_aborts_walk :
    ∀ (es : List (String × EFSEntry)) (d : String) (ig found : List String),
    (anyFailure ig d es = true →
      ∃ msg, getAllFilesInDirectoryE d es ig found = .error msg)
    ∧ (anyFailure ig d es = false →
      getAllFilesInDirectoryE d es ig found
        = .ok (getAllFilesInDirectory d (stripL es) ig found)) := by
  refine listing_strong_indE _ ?_
  intro es ih d ig found
  match es with
  | [] =>
    constructor
    · intro h
      rw [anyFailure_nil] at h
      exact absurd h (by simp)
    · intro h
      rw [getAllFilesE_nil, stripL_nil, getAllFiles_nil]
  | (n, e) :: rest =>
    by_cases hm : (ig.any fun pat => matchesChild d n pat) = true
    · have h1 := anyFailure_cons_matched ig d n e rest hm
      have h2 := getAllFilesE_cons_matched d n e rest ig found hm
      constructor
      · intro h
        rw [h1] at h
        obtain ⟨msg, hmsg⟩ := (ih rest (sizeOf_rest_ltE n e rest) d ig found).1 h
        exact ⟨msg, h2.trans hmsg⟩
      · intro h
        rw [h1] at h
        rw [h2, (ih rest (sizeOf_rest_ltE n e rest) d ig found).2 h]
        match e with
        | .file b =>
          rw [stripL_cons_file n b rest,
            getAllFiles_cons_matched d n FSEntry.file (stripL rest) ig found hm]
        | .dir b cs =>
          rw [stripL_cons_dir n b cs rest,
            getAllFiles_cons_matched d n (FSEntry.dir (stripL cs)) (stripL rest)
              ig found hm]
    · have hm' := eq_false_of_ne_true hm
      match e with
      | .file true =>
        have h1 := anyFailure_cons_file ig d n true rest hm'
        simp only [Bool.not_true, Bool.false_or] at h1
        constructor
        · intro h
          rw [h1] at h
          obtain ⟨msg, hmsg⟩ :=
            (ih rest (sizeOf_rest_ltE n _ rest) d ig (found ++ [pathJoin d n])).1 h
          exact ⟨msg, (getAllFilesE_cons_file_ok d n rest ig found hm').trans hmsg⟩
        · intro h
          rw [h1] at h
          rw [getAllFilesE_cons_file_ok d n rest ig found hm',
            (ih rest (sizeOf_rest_ltE n _ rest) d ig (found ++ [pathJoin d n])).2 h,
            stripL_cons_file,
            getAllFiles_cons_file d n (stripL rest) ig found hm']
      | .file false =>
        constructor
        · intro h
          exact ⟨pathJoin d n, getAllFilesE_cons_file_bad d n rest ig found hm'⟩
        · intro h
          rw [anyFailure_cons_file ig d n false rest hm'] at h
          simp at h
      | .dir true cs =>
        have haf := anyFailure_cons_dir ig d n true cs rest hm'
        simp only [Bool.not_true, Bool.false_or] at haf
        by_cases hcs : anyFailure ig (pathJoin d n) cs = true
        · constructor
          · intro h
            obtain ⟨msg, hmsg⟩ :=
              (ih cs (sizeOf_children_ltE n true cs rest) (pathJoin d n) ig found).1 hcs
            exact ⟨msg, getAllFilesE_cons_dir_ok_err d n cs rest ig found msg hm' hmsg⟩
          · intro h
            rw [haf] at h
            simp [hcs] at h
        · have hcs' := eq_false_of_ne_true hcs
          have hok :=
            (ih cs (sizeOf_children_ltE n true cs rest) (pathJoin d n) ig found).2 hcs'
          have hstep := getAllFilesE_cons_dir_ok_ok d n cs rest ig found _ hm' hok
          constructor
          · intro h
            rw [haf] at h
            simp only [hcs', Bool.false_or] at h
            obtain ⟨msg, hmsg⟩ := (ih rest (sizeOf_rest_ltE n _ rest) d ig _).1 h
            exact ⟨msg, hstep.trans hmsg⟩
          · intro h
            rw [haf] at h
            simp only [hcs', Bool.false_or] at h
            rw [hstep, (ih rest (sizeOf_rest_ltE n _ rest) d ig _).2 h,
              stripL_cons_dir,
              getAllFiles_cons_dir d n (stripL cs) (stripL rest) ig found hm']
      | .dir false cs =>
        constructor
        · intro h
          exact ⟨pathJoin d n, getAllFilesE_cons_dir_bad d n cs rest ig found hm'⟩
        · intro h
          rw [anyFailure_cons_dir ig d n false cs rest hm'] at h
          simp at h

/-- Witness for C9 at a concrete input: the walk that meets the unreadable
directory `secret` aborts with the error for `r/secret` — the sibling file
`a.txt` encountered before the failure is not surfaced. -/
theorem C9_error_aborts_walk_witness :
    ∃ msg, getAllFilesInDirectoryE "r"
        [("a.txt", EFSEntry.file true),
         ("secret", EFSEntry.dir false [("x.txt", EFSEntry.file true)])]
        [] [] = .error msg :=
  (C9_error_aborts_walk
    [("a.txt", EFSEntry.file true),
     ("secret", EFSEntry.dir false [("x.txt", EFSEntry.file true)])]
    "r" [] []).1
    (by simp [anyFailure, matchesChild, minimatch, globFuel, strStartsWith,
      strDrop1, isPrefixL, pathJoin])
